import Mathlib

/- Shallow embedding of the PISM interpolation code of this repository:
   the 1-D index/weight interpolation engine (src/src/util/interpolation.cc)
   and the IceModelVec3 column routines (src/unnamed/part_000).

   C doubles are modelled as exact rationals; C arrays are modelled as
   functions from ℕ with an explicit size.  The C while-loops are modelled
   with explicit fuel arguments; under the hypotheses of every theorem the
   fuel is provably larger than the number of iterations the C loop makes,
   so the embedding and the code agree wherever a theorem speaks. -/

namespace Pism

/-- One entry of the index/weight arrays m_left / m_right / m_alpha of the
Interpolation class. -/
structure LRA where
  left : ℕ
  right : ℕ
  alpha : ℚ
deriving DecidableEq

/-- The loop of GSL's gsl_interp_bsearch: while (ihi > ilo + 1) bisect,
moving ihi down when x_array[i] > x and ilo up otherwise.  The fuel
argument bounds the iteration count; ihi - ilo shrinks every step, so
fuel = ihi - ilo always suffices. -/
def bsearchGo (xa : ℕ → ℚ) (x : ℚ) : ℕ → ℕ → ℕ → ℕ
  | 0, ilo, _ => ilo
  | fuel + 1, ilo, ihi =>
    if ilo + 1 < ihi then
      let i := (ihi + ilo) / 2
      if x < xa i then bsearchGo xa x fuel ilo i
      else bsearchGo xa x fuel i ihi
    else ilo

/-- gsl_interp_bsearch(x_array, x, index_lo, index_hi): the bracket index
at-or-below x inside [index_lo, index_hi - 1]. -/
def gsl_interp_bsearch (xa : ℕ → ℚ) (x : ℚ) (index_lo index_hi : ℕ) : ℕ :=
  bsearchGo xa x (index_hi - index_lo) index_lo index_hi

/-- The strict-monotonicity requirement checked by every init routine:
input_x[i] < input_x[i+1] for all pairs of consecutive entries. -/
def StrictlyIncreasing (f : ℕ → ℚ) (n : ℕ) : Prop :=
  ∀ i < n - 1, f i < f (i + 1)

instance (f : ℕ → ℚ) (n : ℕ) : Decidable (StrictlyIncreasing f n) := by
  unfold StrictlyIncreasing
  infer_instance

/-- Interpolation::init_linear, per output coordinate x: the L/R/alpha
computation of lines 68-95 of interpolation.cc, including the trivial
input_x_size < 2 case (lines 52-57). -/
def init_linear_point (xa : ℕ → ℚ) (n : ℕ) (x : ℚ) : LRA :=
  if n < 2 then ⟨0, 0, 0⟩
  else
    let L := gsl_interp_bsearch xa x 0 (n - 1)
    let R := if xa L < x then L + 1 else L
    ⟨L, R,
      if L ≠ R then (if x ≤ xa R then (x - xa L) / (xa R - xa L) else 1)
      else 0⟩

/-- NearestNeighbor::init: linear indexes/weights, then alpha snapped to 1
when above 0.5 and to 0 otherwise. -/
def nearest_neighbor_point (xa : ℕ → ℚ) (n : ℕ) (x : ℚ) : LRA :=
  let l := init_linear_point xa n x
  ⟨l.left, l.right, if 1 / 2 < l.alpha then 1 else 0⟩

/-- PiecewiseConstant::init, per output coordinate x: left = right = the
bsearch bracket, alpha = 0, with the same trivial case. -/
def piecewise_constant_point (xa : ℕ → ℚ) (n : ℕ) (x : ℚ) : LRA :=
  if n < 2 then ⟨0, 0, 0⟩
  else ⟨gsl_interp_bsearch xa x 0 (n - 1), gsl_interp_bsearch xa x 0 (n - 1), 0⟩

/-- LinearPeriodic::init, per output coordinate x (lines 276-312 of
interpolation.cc), with the same trivial case. -/
def linear_periodic_point (xa : ℕ → ℚ) (n : ℕ) (period x : ℚ) : LRA :=
  if n < 2 then ⟨0, 0, 0⟩
  else
    let LR : ℕ × ℕ :=
      if x < xa 0 then (n - 1, 0)
      else
        let L := gsl_interp_bsearch xa x 0 n
        (L, if L + 1 < n then L + 1 else 0)
    let L := LR.1
    let R := LR.2
    let x_l := xa L
    let x_r := xa R
    let alpha : ℚ :=
      if L < R then (x - x_l) / (x_r - x_l)
      else
        let x0 := xa 0
        let dx := (period - x_l) + x0
        if x0 < x then (x - x_l) / dx else 1 - (x_r - x) / dx
    ⟨L, R, alpha⟩

/-- Interpolation::interpolate, per output point: result = values[L] +
alpha * (values[R] - values[L]). -/
def interpolateAt (values : ℕ → ℚ) (l : LRA) : ℚ :=
  values l.left + l.alpha * (values l.right - values l.left)

/-- Interpolation::interpolate applied after init_linear, over a whole
output grid. -/
def interpolate_linear (xa : ℕ → ℚ) (n : ℕ) (output_x : List ℚ)
    (values : ℕ → ℚ) : List ℚ :=
  output_x.map fun x => interpolateAt values (init_linear_point xa n x)

/-- The indices of m_left / m_right / m_alpha written by init_linear: in the
trivial input_x_size < 2 case the code writes index 0 unconditionally
(lines 52-57); otherwise the loop writes indices 0 .. output_x_size - 1.
The three arrays were resized to output_x_size just before. -/
def init_linear_writes (input_x_size output_x_size : ℕ) : List ℕ :=
  if input_x_size < 2 then [0] else List.range output_x_size

/-- The indices written by PiecewiseConstant::init (lines 185-190: the same
unconditional index-0 write in the trivial case). -/
def piecewise_constant_writes (input_x_size output_x_size : ℕ) : List ℕ :=
  if input_x_size < 2 then [0] else List.range output_x_size

/-- The indices written by LinearPeriodic::init (lines 253-258: the same
unconditional index-0 write in the trivial case). -/
def linear_periodic_writes (input_x_size output_x_size : ℕ) : List ℕ :=
  if input_x_size < 2 then [0] else List.range output_x_size

/- ------------------------------------------------------------------ -/
/- Helper lemmas about strict monotonicity and the GSL binary search. -/
/- ------------------------------------------------------------------ -/

lemma strictlyIncreasing_lt {f : ℕ → ℚ} {n : ℕ} (h : StrictlyIncreasing f n) :
    ∀ {i j : ℕ}, i < j → j < n → f i < f j := by
  intro i j
  induction j with
  | zero => intro h1 _; exact absurd h1 (Nat.not_lt_zero i)
  | succ j ih =>
    intro hij hj
    rcases Nat.lt_succ_iff_lt_or_eq.mp hij with h1 | h1
    · exact lt_trans (ih h1 (by omega)) (h j (by omega))
    · subst h1
      exact h _ (by omega)

lemma strictlyIncreasing_le {f : ℕ → ℚ} {n : ℕ} (h : StrictlyIncreasing f n) :
    ∀ {i j : ℕ}, i ≤ j → j < n → f i ≤ f j := by
  intro i j hij hj
  rcases Nat.lt_or_ge i j with h1 | h1
  · exact le_of_lt (strictlyIncreasing_lt h h1 hj)
  · have : i = j := by omega
    subst this
    exact le_refl _

/-- Loop invariant of gsl_interp_bsearch: the result L lies in
[ilo, ihi - 1], the array value at L is at or below x unless L is the left
end ilo, and x is strictly below the value at L + 1 unless L + 1 is the
right end ihi. -/
lemma bsearchGo_spec (xa : ℕ → ℚ) (x : ℚ) :
    ∀ fuel ilo ihi, ilo + 1 ≤ ihi → ihi - ilo ≤ fuel + 1 →
      ilo ≤ bsearchGo xa x fuel ilo ihi ∧
      bsearchGo xa x fuel ilo ihi + 1 ≤ ihi ∧
      (xa (bsearchGo xa x fuel ilo ihi) ≤ x ∨ bsearchGo xa x fuel ilo ihi = ilo) ∧
      (x < xa (bsearchGo xa x fuel ilo ihi + 1) ∨
        bsearchGo xa x fuel ilo ihi + 1 = ihi) := by
  intro fuel
  induction fuel with
  | zero =>
    intro ilo ihi h1 h2
    simp only [bsearchGo]
    exact ⟨le_refl _, by omega, Or.inr (by trivial), Or.inr (by omega)⟩
  | succ fuel ih =>
    intro ilo ihi h1 h2
    simp only [bsearchGo]
    by_cases hg : ilo + 1 < ihi
    · simp only [if_pos hg]
      have hlo : ilo < (ihi + ilo) / 2 := by omega
      have hhi : (ihi + ilo) / 2 < ihi := by omega
      by_cases hx : x < xa ((ihi + ilo) / 2)
      · simp only [if_pos hx]
        have r := ih ilo ((ihi + ilo) / 2) (by omega) (by omega)
        refine ⟨r.1, by omega, r.2.2.1, ?_⟩
        rcases r.2.2.2 with h | h
        · exact Or.inl h
        · exact Or.inl (by rw [h]; exact hx)
      · simp only [if_neg hx]
        have r := ih ((ihi + ilo) / 2) ihi (by omega) (by omega)
        refine ⟨by omega, r.2.1, ?_, r.2.2.2⟩
        rcases r.2.2.1 with h | h
        · exact Or.inl h
        · exact Or.inl (by rw [h]; exact not_lt.mp hx)
    · simp only [if_neg hg]
      exact ⟨le_refl _, by omega, Or.inr (by trivial), Or.inr (by omega)⟩

lemma gsl_interp_bsearch_spec (xa : ℕ → ℚ) (x : ℚ) (ilo ihi : ℕ)
    (h : ilo + 1 ≤ ihi) :
    ilo ≤ gsl_interp_bsearch xa x ilo ihi ∧
    gsl_interp_bsearch xa x ilo ihi + 1 ≤ ihi ∧
    (xa (gsl_interp_bsearch xa x ilo ihi) ≤ x ∨
      gsl_interp_bsearch xa x ilo ihi = ilo) ∧
    (x < xa (gsl_interp_bsearch xa x ilo ihi + 1) ∨
      gsl_interp_bsearch xa x ilo ihi + 1 = ihi) :=
  bsearchGo_spec xa x (ihi - ilo) ilo ihi h (by omega)

/- ------------------------------------------------------------------ -/
/- The IceModelVec3 column store (src/unnamed/part_000).               -/
/- ------------------------------------------------------------------ -/

/-- The part of the IceGrid descriptor the ice-variant column routines
read: the vertical level count Mz, the stored level coordinates zlevels,
and the domain height Lz. -/
structure IceGrid where
  Mz : ℕ
  zlevels : ℕ → ℚ
  Lz : ℚ

/-- The 1.0e-6 tolerance of isLegalLevel. -/
def eps6 : ℚ := 1 / 1000000

/-- The 1.0e-3 tolerance of the setValColumnPL coverage checks. -/
def eps3 : ℚ := 1 / 1000

/-- IceModelVec3::isLegalLevel: z is legal iff it is neither below
0 - 1e-6 nor above Lz + 1e-6. -/
def isLegalLevel (g : IceGrid) (z : ℚ) : Bool :=
  !(decide (z < 0 - eps6)) && !(decide (g.Lz + eps6 < z))

/-- The bracket-scan loop `while (f[m+1] < z) m++` used throughout
iceModelVec3: started at m, it returns the final m together with the list
of indices m+1 at which f was read (each loop test reads f[m+1], also the
failing one).  The fuel bounds the iteration count; every use below passes
fuel that provably exceeds the iterations the C loop makes under the
theorem's hypotheses. -/
def scanFrom (f : ℕ → ℚ) (z : ℚ) : ℕ → ℕ → ℕ × List ℕ
  | 0, m => (m, [])
  | fuel + 1, m =>
    if f (m + 1) < z then
      let r := scanFrom f z fuel (m + 1)
      (r.1, (m + 1) :: r.2)
    else (m, [m + 1])

/-- The linear-interpolation expression `valm + incr * (arr[m+1] - valm)`
with `incr = (z - levels[m]) / (levels[m+1] - levels[m])` shared by
getValZ, getValColumnPL and the top-of-grid branch of getValColumnQUAD. -/
def plFormula (g : IceGrid) (col : ℕ → ℚ) (m : ℕ) (z : ℚ) : ℚ :=
  col m + ((z - g.zlevels m) / (g.zlevels (m + 1) - g.zlevels m)) * (col (m + 1) - col m)

/-- IceModelVec3::getValZ(i, j, z) on the column at (i, j): none models the
PetscEnd on an illegal level; otherwise clamp at the top (z >= Lz), clamp
at the bottom (z <= 0), or linearly interpolate at the bracket found by
the scan from index 0. -/
def getValZ (g : IceGrid) (col : ℕ → ℚ) (z : ℚ) : Option ℚ :=
  if !(isLegalLevel g z) then none
  else if g.Lz ≤ z then some (col (g.Mz - 1))
  else if z ≤ 0 then some (col 0)
  else some (plFormula g col (scanFrom g.zlevels z g.Mz 0).1 z)

/-- The list-of-query-levels check `levelsIN[k] >= levelsIN[k+1] → error`
of getValColumnPL / getValColumnQUAD, as a Bool over the query list. -/
def strictIncList : List ℚ → Bool
  | [] => true
  | [_] => true
  | a :: b :: rest => decide (a < b) && strictIncList (b :: rest)

/-- The per-level body of IceModelVec3::getValColumnPL with its running
bracket index mcurr (kept across query levels): extrapolate flat above the
top stored level, otherwise scan forward and linearly interpolate. -/
def plLoop (g : IceGrid) (col : ℕ → ℚ) : ℕ → List ℚ → List ℚ
  | _, [] => []
  | mcurr, z :: rest =>
    if g.zlevels (g.Mz - 1) < z then
      col (g.Mz - 1) :: plLoop g col mcurr rest
    else
      let m := (scanFrom g.zlevels z g.Mz mcurr).1
      plFormula g col m z :: plLoop g col m rest

/-- IceModelVec3::getValColumnPL(i, j, levelsIN): none models the SETERRQ
paths (levelsIN[0] illegal, or levelsIN not strictly increasing). -/
def getValColumnPL (g : IceGrid) (col : ℕ → ℚ) (zs : List ℚ) : Option (List ℚ) :=
  if !(isLegalLevel g zs.headI) then none
  else if !(strictIncList zs) then none
  else some (plLoop g col 0 zs)

/-- The output expression of one getValColumnQUAD iteration at bracket m:
linear interpolation at the top of the grid (mcurr >= Mz - 2), and the
Newton divided-difference quadratic through the stored samples at
m, m+1, m+2 otherwise. -/
def quadFormula (g : IceGrid) (col : ℕ → ℚ) (m : ℕ) (z : ℚ) : ℚ :=
  let z0 := g.zlevels m
  let f0 := col m
  if g.Mz - 2 ≤ m then
    f0 + ((z - z0) / (g.zlevels (m + 1) - z0)) * (col (m + 1) - f0)
  else
    let dz1 := g.zlevels (m + 1) - z0
    let dz2 := g.zlevels (m + 2) - z0
    let D1 := (col (m + 1) - f0) / dz1
    let D2 := (col (m + 2) - f0) / dz2
    let c := (D2 - D1) / (dz2 - dz1)
    let b := D1 - c * dz1
    f0 + (z - z0) * (b + c * (z - z0))

/-- The per-level body of IceModelVec3::getValColumnQUAD with its running
bracket index mcurr. -/
def quadLoop (g : IceGrid) (col : ℕ → ℚ) : ℕ → List ℚ → List ℚ
  | _, [] => []
  | mcurr, z :: rest =>
    if g.zlevels (g.Mz - 1) < z then
      col (g.Mz - 1) :: quadLoop g col mcurr rest
    else
      let m := (scanFrom g.zlevels z g.Mz mcurr).1
      quadFormula g col m z :: quadLoop g col m rest

/-- IceModelVec3::getValColumnQUAD(i, j, levelsIN), with the same
validation as getValColumnPL. -/
def getValColumnQUAD (g : IceGrid) (col : ℕ → ℚ) (zs : List ℚ) : Option (List ℚ) :=
  if !(isLegalLevel g zs.headI) then none
  else if !(strictIncList zs) then none
  else some (quadLoop g col 0 zs)

/-- The value of one getValColumn* query level, computed with a fresh
bracket scan from index 0; under strictly increasing query levels the
stateful loops compute exactly this (proved below). -/
def quad_point (g : IceGrid) (col : ℕ → ℚ) (z : ℚ) : ℚ :=
  if g.zlevels (g.Mz - 1) < z then col (g.Mz - 1)
  else quadFormula g col (scanFrom g.zlevels z g.Mz 0).1 z

/-- The strict-increase loop of IceModelVec3::setValColumnPL over a size-n
array given as a function. -/
def strictIncCheck (f : ℕ → ℚ) (n : ℕ) : Bool :=
  (List.range (n - 1)).all fun k => decide (f k < f (k + 1))

/-- The write loop of IceModelVec3::setValColumnPL: for each stored level
k = 0 .. Mz-1 (rem counts the remaining levels) scan levelsIN forward from
the running mcurr and interpolate valsIN there.  Returns the list of
written column values in order of k, and the list of all levelsIN indices
read by the scans.  Each scan gets fuel = nlevels. -/
def setPLGo (zlv lin vin : ℕ → ℚ) (nlevels : ℕ) : ℕ → ℕ → ℕ → List ℚ × List ℕ
  | 0, _, _ => ([], [])
  | rem + 1, k, mcurr =>
    let s := scanFrom lin (zlv k) nlevels mcurr
    let increment := (zlv k - lin s.1) / (lin (s.1 + 1) - lin s.1)
    let w := vin s.1 + increment * (vin (s.1 + 1) - vin s.1)
    let rest := setPLGo zlv lin vin nlevels rem (k + 1) s.1
    (w :: rest.1, s.2 ++ rest.2)

/-- IceModelVec3::setValColumnPL(i, j, nlevels, levelsIN, valsIN) acting on
the column at (i, j): the Bool is false on the SETERRQ paths, in the order
the code checks them (levelsIN[0] above the ice base, levelsIN[nlevels-1]
below the domain top, levelsIN not strictly increasing); every check
precedes the write loop, so on failure the returned column is the input
column itself.  On success the first Mz entries of the column are
overwritten with the interpolated values and the scans' read indices are
returned. -/
def setValColumnPL (g : IceGrid) (col : ℕ → ℚ) (nlevels : ℕ)
    (levelsIN valsIN : ℕ → ℚ) : Bool × (ℕ → ℚ) × List ℕ :=
  if 0 + eps3 < levelsIN 0 then (false, col, [])
  else if levelsIN (nlevels - 1) < g.Lz - eps3 then (false, col, [])
  else if !(strictIncCheck levelsIN nlevels) then (false, col, [])
  else
    let r := setPLGo g.zlevels levelsIN valsIN nlevels g.Mz 0 0
    (true, fun k => if k < g.Mz then r.1.getD k 0 else col k, r.2)

/- ------------------------------------------------------------------ -/
/- Vertical extension (IceModelVec3::extend_vertically).               -/
/- ------------------------------------------------------------------ -/

/-- The horizontal ownership ranges xs..xs+xm, ys..ys+ym of the local
subdomain, over which the extension loops of iceModelVec3 run. -/
structure HGrid where
  xs : ℤ
  xm : ℤ
  ys : ℤ
  ym : ℤ

/-- A horizontal cell (i, j) is owned by the local subdomain. -/
def owned (g : HGrid) (i j : ℤ) : Prop :=
  g.xs ≤ i ∧ i < g.xs + g.xm ∧ g.ys ≤ j ∧ j < g.ys + g.ym

instance (g : HGrid) (i j : ℤ) : Decidable (owned g i j) := by
  unfold owned
  infer_instance

/-- IceModelVec3::extend_vertically_private(old_Mz): the copy loop moves
the owned values at level indices k < old_Mz to the freshly allocated
vector; all other entries of the new vector carry the allocation value
(modelled as 0), not yet filled. -/
def extend_vertically_private (g : HGrid) (old_Mz : ℕ)
    (a : ℤ → ℤ → ℕ → ℚ) : ℤ → ℤ → ℕ → ℚ :=
  fun i j k => if owned g i j ∧ k < old_Mz then a i j k else 0

/-- IceModelVec3::extend_vertically(old_Mz, fill_value): reallocate and
copy via extend_vertically_private, then set every owned entry at level
indices old_Mz <= k < Mz to fill_value. -/
def extend_vertically (g : HGrid) (Mz old_Mz : ℕ) (fill_value : ℚ)
    (a : ℤ → ℤ → ℕ → ℚ) : ℤ → ℤ → ℕ → ℚ :=
  let b := extend_vertically_private g old_Mz a
  fun i j k => if owned g i j ∧ old_Mz ≤ k ∧ k < Mz then fill_value else b i j k

/-- IceModelVec3::extend_vertically(old_Mz, fill_values): the variant that
fills the new levels of the column at (i, j) from a 2-D field. -/
def extend_vertically_field (g : HGrid) (Mz old_Mz : ℕ)
    (fill_values : ℤ → ℤ → ℚ) (a : ℤ → ℤ → ℕ → ℚ) : ℤ → ℤ → ℕ → ℚ :=
  let b := extend_vertically_private g old_Mz a
  fun i j k => if owned g i j ∧ old_Mz ≤ k ∧ k < Mz then fill_values i j else b i j k

/- ------------------------------------------------------------------ -/
/- Characterization of the bracket scan.                               -/
/- ------------------------------------------------------------------ -/

/-- If some index j within fuel of the start m stops the scan, then the
scan result is the least stopping index at or after m, and every index it
read lies in [m + 1, result + 1]. -/
lemma scanFrom_spec (f : ℕ → ℚ) (z : ℚ) :
    ∀ fuel m j, m ≤ j → j ≤ m + fuel → ¬ f (j + 1) < z →
      m ≤ (scanFrom f z fuel m).1 ∧
      (scanFrom f z fuel m).1 ≤ j ∧
      ¬ f ((scanFrom f z fuel m).1 + 1) < z ∧
      (∀ i, m ≤ i → i < (scanFrom f z fuel m).1 → f (i + 1) < z) ∧
      (∀ a ∈ (scanFrom f z fuel m).2, m + 1 ≤ a ∧ a ≤ (scanFrom f z fuel m).1 + 1) := by
  intro fuel
  induction fuel with
  | zero =>
    intro m j hmj hjf hstop
    have hj : j = m := by omega
    subst hj
    simp only [scanFrom]
    exact ⟨le_refl _, le_refl _, hstop, fun i h1 h2 => absurd h2 (by omega),
      fun a ha => absurd ha (List.not_mem_nil a)⟩
  | succ fuel ih =>
    intro m j hmj hjf hstop
    simp only [scanFrom]
    by_cases hc : f (m + 1) < z
    · simp only [if_pos hc]
      have hjm : m + 1 ≤ j := by
        rcases Nat.eq_or_lt_of_le hmj with h | h
        · exact absurd hc (h ▸ hstop)
        · omega
      have r := ih (m + 1) j hjm (by omega) hstop
      refine ⟨by omega, r.2.1, r.2.2.1, ?_, ?_⟩
      · intro i h1 h2
        rcases Nat.eq_or_lt_of_le h1 with h | h
        · exact h ▸ hc
        · exact r.2.2.2.1 i h h2
      · intro a ha
        rcases List.mem_cons.mp ha with h | h
        · subst h
          exact ⟨le_refl _, by omega⟩
        · have := r.2.2.2.2 a h
          exact ⟨by omega, this.2⟩
    · simp only [if_neg hc]
      refine ⟨le_refl _, hmj, hc, fun i h1 h2 => absurd h2 (by omega), ?_⟩
      intro a ha
      rcases List.mem_cons.mp ha with h | h
      · subst h; exact ⟨le_refl _, le_refl _⟩
      · exact absurd h (List.not_mem_nil a)

/-- Restarting the scan anywhere at or below the scan-from-0 result gives
the same bracket (the state kept across query levels is harmless). -/
lemma scanFrom_restart (f : ℕ → ℚ) (z : ℚ) (fuel m j : ℕ)
    (hj : j ≤ fuel) (hstop : ¬ f (j + 1) < z)
    (hm : m ≤ (scanFrom f z fuel 0).1) :
    (scanFrom f z fuel m).1 = (scanFrom f z fuel 0).1 := by
  have r0 := scanFrom_spec f z fuel 0 j (Nat.zero_le j) (by omega) hstop
  have hmj : m ≤ (scanFrom f z fuel 0).1 := hm
  have r1 := scanFrom_spec f z fuel m (scanFrom f z fuel 0).1 hmj
    (by omega) r0.2.2.1
  rcases Nat.lt_or_ge (scanFrom f z fuel m).1 (scanFrom f z fuel 0).1 with h | h
  · exact absurd (r0.2.2.2.1 (scanFrom f z fuel m).1 (Nat.zero_le _) h) r1.2.2.1
  · omega

/-- The scan-from-0 bracket is monotone in the query level. -/
lemma scanFrom_mono (f : ℕ → ℚ) (z z' : ℚ) (fuel j j' : ℕ)
    (hzz : z ≤ z')
    (hj : j ≤ fuel) (hstop : ¬ f (j + 1) < z)
    (hj' : j' ≤ fuel) (hstop' : ¬ f (j' + 1) < z') :
    (scanFrom f z fuel 0).1 ≤ (scanFrom f z' fuel 0).1 := by
  have r := scanFrom_spec f z fuel 0 j (Nat.zero_le j) (by omega) hstop
  have r' := scanFrom_spec f z' fuel 0 j' (Nat.zero_le j') (by omega) hstop'
  rcases Nat.lt_or_ge (scanFrom f z' fuel 0).1 (scanFrom f z fuel 0).1 with h | h
  · have hcont := r.2.2.2.1 (scanFrom f z' fuel 0).1 (Nat.zero_le _) h
    exact absurd (lt_of_lt_of_le hcont hzz) r'.2.2.1
  · exact h

/- ------------------------------------------------------------------ -/
/- Concrete fixtures used by the scenario parts and witnesses.         -/
/- ------------------------------------------------------------------ -/

/-- The input grid [0, 1, 2, 3] of the linear-policy scenario. -/
def xa4C : ℕ → ℚ := fun k => [0, 1, 2, 3].getD k 0

/-- The two-point periodic grid [0, 1]. -/
def xaP : ℕ → ℚ := fun k => [0, 1].getD k 0

/-- The ice grid of the column scenario: levels [0, 10, 20, 30], Lz = 30. -/
def gC : IceGrid := ⟨4, fun k => [0, 10, 20, 30].getD k 0, 30⟩

/-- The stored column [100, 200, 300, 400] of the column scenario. -/
def colC : ℕ → ℚ := fun k => [100, 200, 300, 400].getD k 0

/- ------------------------------------------------------------------ -/
/- Claim theorems.                                                     -/
/- ------------------------------------------------------------------ -/

/-- C1: on a strictly increasing input grid of size at least 2, for every
output coordinate x, init_linear picks L = the bracket index at-or-below x
clamped to [0, size-2] (characterized by: L + 1 < size, input_x[L] at or
below x unless L = 0, x strictly below input_x[L+1] unless L = size-2),
R = L + 1 exactly when x > input_x[L], and the stated weight; and on
input_x = [0,1,2,3], output_x = [-1, 0, 1.5, 3, 5], interpolating
[v0,v1,v2,v3] yields [v0, v0, (v1+v2)/2, v3, v3]. -/
theorem C1_init_linear_formula :
    (∀ (xa : ℕ → ℚ) (n : ℕ) (x : ℚ), 2 ≤ n → StrictlyIncreasing xa n →
      (init_linear_point xa n x).left + 1 < n ∧
      (xa (init_linear_point xa n x).left ≤ x ∨ (init_linear_point xa n x).left = 0) ∧
      (x < xa ((init_linear_point xa n x).left + 1) ∨
        (init_linear_point xa n x).left = n - 2) ∧
      (init_linear_point xa n x).right =
        (if xa (init_linear_point xa n x).left < x then (init_linear_point xa n x).left + 1
          else (init_linear_point xa n x).left) ∧
      (init_linear_point xa n x).alpha =
        (if (init_linear_point xa n x).left ≠ (init_linear_point xa n x).right then
          (if x ≤ xa (init_linear_point xa n x).right then
            (x - xa (init_linear_point xa n x).left) /
              (xa (init_linear_point xa n x).right - xa (init_linear_point xa n x).left)
          else 1)
        else 0)) ∧
    (∀ v0 v1 v2 v3 : ℚ,
      interpolate_linear xa4C 4 [-1, 0, 3/2, 3, 5] (fun k => [v0, v1, v2, v3].getD k 0) =
        [v0, v0, (v1 + v2) / 2, v3, v3]) := by
  constructor
  · intro xa n x hn hsi
    have hn2 : ¬ n < 2 := by omega
    have spec := gsl_interp_bsearch_spec xa x 0 (n - 1) (by omega)
    have h1 := spec.2.1
    simp only [init_linear_point, if_neg hn2]
    refine ⟨by omega, spec.2.2.1, ?_, by trivial, by trivial⟩
    rcases spec.2.2.2 with h | h
    · exact Or.inl h
    · exact Or.inr (by omega)
  · intro v0 v1 v2 v3
    norm_num [interpolate_linear, init_linear_point, gsl_interp_bsearch, bsearchGo,
      interpolateAt, xa4C]
    ring

/-- Witness for C1 at the concrete input xa4C, n = 4, x = 3/2. -/
theorem C1_witness :
    (2 ≤ 4 ∧ StrictlyIncreasing xa4C 4) ∧
    (init_linear_point xa4C 4 (3/2)).left + 1 < 4 :=
  ⟨⟨by norm_num, by decide⟩,
    (C1_init_linear_formula.1 xa4C 4 (3/2) (by norm_num) (by decide)).1⟩

/-- C8: for every strictly increasing input grid, building the linear
policy with output_x = input_x and interpolating input_x itself returns
input_x unchanged at every output index. -/
theorem C8_self_interpolation (xa : ℕ → ℚ) (n : ℕ)
    (hsi : StrictlyIncreasing xa n) :
    ∀ i, i < n → interpolateAt xa (init_linear_point xa n (xa i)) = xa i := by
  intro i hi
  by_cases hn2 : n < 2
  · have hi0 : i = 0 := by omega
    subst hi0
    simp only [init_linear_point, if_pos hn2, interpolateAt]
    ring
  · have spec := gsl_interp_bsearch_spec xa (xa i) 0 (n - 1) (by omega)
    simp only [init_linear_point, if_neg hn2, interpolateAt]
    generalize hLdef : gsl_interp_bsearch xa (xa i) 0 (n - 1) = L at spec ⊢
    obtain ⟨-, hL1, hA, hB⟩ := spec
    have hLlei : L ≤ i := by
      rcases hA with h | h
      · by_contra hcon
        exact absurd h (not_le.mpr (strictlyIncreasing_lt hsi (by omega) (by omega)))
      · omega
    by_cases hx : xa i < xa (L + 1)
    · have hiL : L = i := by
        by_contra hcon
        have hlt : L + 1 ≤ i := by omega
        exact absurd (strictlyIncreasing_le hsi hlt hi) (not_le.mpr hx)
      subst hiL
      rw [if_neg (lt_irrefl (xa L))]
      rw [if_neg (show ¬ L ≠ L from fun h => h rfl)]
      ring
    · have hLn : L + 1 = n - 1 := by
        rcases hB with h | h
        · exact absurd h hx
        · exact h
      have hin : i = n - 1 := by
        have hle : xa (L + 1) ≤ xa i := not_lt.mp hx
        by_contra hcon
        have hilt : i < L + 1 := by omega
        exact absurd hle (not_le.mpr (strictlyIncreasing_lt hsi hilt (by omega)))
      have hstep : xa L < xa (L + 1) := hsi L (by omega)
      have hxieq : xa i = xa (L + 1) := by rw [hin, ← hLn]
      have hcond : xa L < xa i := by rw [hxieq]; exact hstep
      rw [if_pos hcond]
      rw [if_pos (show L ≠ L + 1 by omega)]
      rw [if_pos (show xa i ≤ xa (L + 1) from le_of_eq hxieq)]
      rw [hxieq]
      have hne : xa (L + 1) - xa L ≠ 0 := ne_of_gt (by linarith)
      field_simp

/-- Witness for C8 at xa4C, n = 4, i = 2. -/
theorem C8_witness :
    StrictlyIncreasing xa4C 4 ∧
    interpolateAt xa4C (init_linear_point xa4C 4 (xa4C 2)) = xa4C 2 :=
  ⟨by decide, C8_self_interpolation xa4C 4 (by decide) 2 (by norm_num)⟩

/-- C7: for the periodic-linear policy with period p, on a strictly
increasing grid of size at least 2 whose span is below the period,
interpolating any values at input_x[0] and at input_x[0] + p yields the
same value (both equal values[0]). -/
theorem C7_periodic_wrap (xa : ℕ → ℚ) (n : ℕ) (period : ℚ) (values : ℕ → ℚ)
    (hn : 2 ≤ n) (hsi : StrictlyIncreasing xa n)
    (hspan : xa (n - 1) < xa 0 + period) :
    interpolateAt values (linear_periodic_point xa n period (xa 0)) =
      interpolateAt values (linear_periodic_point xa n period (xa 0 + period)) := by
  have hn2 : ¬ n < 2 := by omega
  have h0top : xa 0 < xa (n - 1) := strictlyIncreasing_lt hsi (by omega) (by omega)
  have hper : 0 < period := by linarith
  -- left-hand side: query at xa 0 gives L = 0, R = 1, weight 0
  have hLHS : interpolateAt values (linear_periodic_point xa n period (xa 0)) = values 0 := by
    have hnotlt : ¬ xa 0 < xa 0 := lt_irrefl _
    have spec := gsl_interp_bsearch_spec xa (xa 0) 0 n (by omega)
    have hL0 : gsl_interp_bsearch xa (xa 0) 0 n = 0 := by
      rcases spec.2.2.1 with h | h
      · by_contra hcon
        have := strictlyIncreasing_lt hsi (Nat.pos_of_ne_zero hcon) (by omega)
        linarith
      · exact h
    simp only [linear_periodic_point, if_neg hn2, if_neg hnotlt, hL0, interpolateAt]
    have h1n : 0 + 1 < n := by omega
    rw [if_pos h1n]
    simp only [if_pos (Nat.zero_lt_one)]
    have : (xa 0 - xa 0) / (xa (0 + 1) - xa 0) = 0 := by
      rw [sub_self, zero_div]
    rw [this]
    ring
  -- right-hand side: query at xa 0 + period gives L = n-1, R = 0, weight 1
  have hRHS : interpolateAt values (linear_periodic_point xa n period (xa 0 + period)) =
      values 0 := by
    have hnotlt : ¬ xa 0 + period < xa 0 := by linarith
    have spec := gsl_interp_bsearch_spec xa (xa 0 + period) 0 n (by omega)
    have hLn : gsl_interp_bsearch xa (xa 0 + period) 0 n = n - 1 := by
      rcases spec.2.2.2 with h | h
      · by_contra hcon
        have hlt : gsl_interp_bsearch xa (xa 0 + period) 0 n + 1 ≤ n - 1 := by
          have := spec.2.1
          omega
        have hmono : xa (gsl_interp_bsearch xa (xa 0 + period) 0 n + 1) ≤ xa (n - 1) :=
          strictlyIncreasing_le hsi hlt (by omega)
        linarith
      · omega
    simp only [linear_periodic_point, if_neg hn2, if_neg hnotlt, hLn, interpolateAt]
    have hnn : ¬ (n - 1) + 1 < n := by omega
    rw [if_neg hnn]
    have hnR : ¬ (n - 1 : ℕ) < 0 := Nat.not_lt_zero _
    simp only [if_neg hnR]
    rw [if_pos (by linarith : xa 0 < xa 0 + period)]
    have hdx : (period - xa (n - 1)) + xa 0 ≠ 0 := by linarith
    have : (xa 0 + period - xa (n - 1)) / ((period - xa (n - 1)) + xa 0) = 1 := by
      rw [div_eq_one_iff_eq hdx]
      ring
    rw [this]
    ring
  rw [hLHS, hRHS]

/-- Witness for C7 at xaP = [0, 1], period = 2, values = xaP. -/
theorem C7_witness :
    (2 ≤ 2 ∧ StrictlyIncreasing xaP 2 ∧ xaP (2 - 1) < xaP 0 + 2) ∧
    interpolateAt xaP (linear_periodic_point xaP 2 2 (xaP 0)) =
      interpolateAt xaP (linear_periodic_point xaP 2 2 (xaP 0 + 2)) :=
  ⟨⟨by norm_num, by decide, by norm_num [xaP]⟩,
    C7_periodic_wrap xaP 2 2 xaP (by norm_num) (by decide) (by norm_num [xaP])⟩

/-- Bounds of the linear-policy indexes and weight on a strictly increasing
grid of size at least 2. -/
lemma init_linear_point_bounds (xa : ℕ → ℚ) (n : ℕ) (x : ℚ)
    (hn : 2 ≤ n) (hsi : StrictlyIncreasing xa n) :
    (init_linear_point xa n x).left + 1 < n ∧
    (init_linear_point xa n x).right < n ∧
    0 ≤ (init_linear_point xa n x).alpha ∧ (init_linear_point xa n x).alpha ≤ 1 := by
  have hn2 : ¬ n < 2 := by omega
  have spec := gsl_interp_bsearch_spec xa x 0 (n - 1) (by omega)
  simp only [init_linear_point, if_neg hn2]
  generalize hLdef : gsl_interp_bsearch xa x 0 (n - 1) = L at spec ⊢
  obtain ⟨-, hL1, hA, hB⟩ := spec
  have hstep : xa L < xa (L + 1) := hsi L (by omega)
  by_cases hc : xa L < x
  · rw [if_pos hc, if_pos (show L ≠ L + 1 by omega)]
    refine ⟨by omega, by omega, ?_, ?_⟩
    · by_cases hc2 : x ≤ xa (L + 1)
      · rw [if_pos hc2]
        exact div_nonneg (by linarith) (by linarith)
      · rw [if_neg hc2]
        norm_num
    · by_cases hc2 : x ≤ xa (L + 1)
      · rw [if_pos hc2, div_le_one (by linarith)]
        linarith
      · rw [if_neg hc2]
  · rw [if_neg hc, if_neg (show ¬ L ≠ L from fun h => h rfl)]
    exact ⟨by omega, by omega, le_refl 0, by norm_num⟩

/-- Bounds of the piecewise-constant indexes; the weight is exactly 0. -/
lemma piecewise_constant_point_bounds (xa : ℕ → ℚ) (n : ℕ) (x : ℚ)
    (hn : 2 ≤ n) :
    (piecewise_constant_point xa n x).left + 1 < n ∧
    (piecewise_constant_point xa n x).right + 1 < n ∧
    (piecewise_constant_point xa n x).alpha = 0 := by
  have hn2 : ¬ n < 2 := by omega
  have spec := gsl_interp_bsearch_spec xa x 0 (n - 1) (by omega)
  simp only [piecewise_constant_point, if_neg hn2]
  have h1 := spec.2.1
  exact ⟨by omega, by omega, by trivial⟩

/-- C2 (amended): on a strictly increasing input grid of size at least 2,
the indexes of all four policies are valid for every query x, and the
weight lies in [0, 1] for the linear, nearest-neighbor and
piecewise-constant policies for every query x; for the periodic-linear
policy the weight lies in [0, 1] provided additionally the grid span is
below the period (input_x[n-1] < input_x[0] + period) and the query
satisfies input_x[0] - ((period - input_x[n-1]) + input_x[0]) <= x
<= input_x[0] + period.  (As stated, with no restriction on the
periodic-policy query, the claim is false: see the counterexample.) -/
theorem C2_amended_postconditions (xa : ℕ → ℚ) (n : ℕ) (period x : ℚ)
    (hn : 2 ≤ n) (hsi : StrictlyIncreasing xa n) :
    ((init_linear_point xa n x).left < n ∧ (init_linear_point xa n x).right < n ∧
      0 ≤ (init_linear_point xa n x).alpha ∧ (init_linear_point xa n x).alpha ≤ 1) ∧
    ((nearest_neighbor_point xa n x).left < n ∧ (nearest_neighbor_point xa n x).right < n ∧
      0 ≤ (nearest_neighbor_point xa n x).alpha ∧ (nearest_neighbor_point xa n x).alpha ≤ 1) ∧
    ((piecewise_constant_point xa n x).left < n ∧ (piecewise_constant_point xa n x).right < n ∧
      0 ≤ (piecewise_constant_point xa n x).alpha ∧ (piecewise_constant_point xa n x).alpha ≤ 1) ∧
    ((linear_periodic_point xa n period x).left < n ∧
      (linear_periodic_point xa n period x).right < n ∧
      (xa (n - 1) < xa 0 + period →
        xa 0 - ((period - xa (n - 1)) + xa 0) ≤ x → x ≤ xa 0 + period →
        0 ≤ (linear_periodic_point xa n period x).alpha ∧
          (linear_periodic_point xa n period x).alpha ≤ 1)) := by
  have hn2 : ¬ n < 2 := by omega
  have hlin := init_linear_point_bounds xa n x hn hsi
  obtain ⟨hl1, hl2, hl3, hl4⟩ := hlin
  have hpc := piecewise_constant_point_bounds xa n x hn
  refine ⟨⟨by omega, hl2, hl3, hl4⟩, ?_, ⟨by omega, by omega, ?_, ?_⟩, ?_⟩
  · -- nearest neighbor: same indexes, snapped weight
    refine ⟨?_, ?_, ?_, ?_⟩
    · show (init_linear_point xa n x).left < n
      omega
    · show (init_linear_point xa n x).right < n
      exact hl2
    · show (0 : ℚ) ≤ (if 1 / 2 < (init_linear_point xa n x).alpha then 1 else 0)
      by_cases h : (1 : ℚ) / 2 < (init_linear_point xa n x).alpha
      · rw [if_pos h]; norm_num
      · rw [if_neg h]
    · show (if 1 / 2 < (init_linear_point xa n x).alpha then (1 : ℚ) else 0) ≤ 1
      by_cases h : (1 : ℚ) / 2 < (init_linear_point xa n x).alpha
      · rw [if_pos h]
      · rw [if_neg h]; norm_num
  · rw [hpc.2.2]
  · rw [hpc.2.2]
    norm_num
  · -- periodic-linear
    simp only [linear_periodic_point, if_neg hn2]
    by_cases hx0 : x < xa 0
    · simp only [if_pos hx0]
      refine ⟨by omega, by omega, ?_⟩
      intro hspan hlo hhi
      have hdx : 0 < (period - xa (n - 1)) + xa 0 := by linarith
      rw [if_neg (show ¬ ((n : ℕ) - 1 < 0) from Nat.not_lt_zero _)]
      rw [if_neg (show ¬ xa 0 < x by linarith)]
      constructor
      · have h1 : (xa 0 - x) / ((period - xa (n - 1)) + xa 0) ≤ 1 := by
          rw [div_le_one hdx]
          linarith
        linarith
      · have h1 : 0 ≤ (xa 0 - x) / ((period - xa (n - 1)) + xa 0) :=
          div_nonneg (by linarith) (le_of_lt hdx)
        linarith
    · simp only [if_neg hx0]
      have spec := gsl_interp_bsearch_spec xa x 0 n (by omega)
      generalize hLdef : gsl_interp_bsearch xa x 0 n = L at spec ⊢
      obtain ⟨-, hL1, hA, hB⟩ := spec
      have hxaL : xa L ≤ x := by
        rcases hA with h | h
        · exact h
        · rw [h]; exact not_lt.mp hx0
      by_cases hLn : L + 1 < n
      · simp only [if_pos hLn]
        have hxlt : x < xa (L + 1) := by
          rcases hB with h | h
          · exact h
          · omega
        have hstep : xa L < xa (L + 1) := hsi L (by omega)
        refine ⟨by omega, by omega, ?_⟩
        intro hspan hlo hhi
        rw [if_pos (show L < L + 1 by omega)]
        constructor
        · exact div_nonneg (by linarith) (by linarith)
        · rw [div_le_one (by linarith)]
          linarith
      · simp only [if_neg hLn]
        have hLeq : L = n - 1 := by omega
        subst hLeq
        refine ⟨by omega, by omega, ?_⟩
        intro hspan hlo hhi
        have hdx : 0 < (period - xa (n - 1)) + xa 0 := by linarith
        rw [if_neg (Nat.not_lt_zero _)]
        have hx0lt : xa 0 < x := by
          have h00 : xa 0 < xa (n - 1) := strictlyIncreasing_lt hsi (by omega) (by omega)
          linarith
        rw [if_pos hx0lt]
        constructor
        · exact div_nonneg (by linarith) (le_of_lt hdx)
        · rw [div_le_one hdx]
          linarith

/-- Counterexample to C2 as stated: on the strictly increasing grid
xaP = [0, 1] with period 2 (a permitted input), the periodic-linear policy
at query x = 3 produces weight 2, violating alpha <= 1, so the in-code
weight assertion does not hold for all queries. -/
theorem C2_counterexample :
    (2 ≤ 2 ∧ StrictlyIncreasing xaP 2) ∧
    (linear_periodic_point xaP 2 2 3).alpha = 2 ∧
    ¬ ((linear_periodic_point xaP 2 2 3).alpha ≤ 1) := by
  refine ⟨⟨by norm_num, by decide⟩, ?_, ?_⟩
  · norm_num [linear_periodic_point, gsl_interp_bsearch, bsearchGo, xaP]
  · norm_num [linear_periodic_point, gsl_interp_bsearch, bsearchGo, xaP]

/-- Witness for C2 (amended) at xa4C, n = 4, period = 10, x = 5. -/
theorem C2_witness :
    (2 ≤ 4 ∧ StrictlyIncreasing xa4C 4) ∧
    (0 ≤ (linear_periodic_point xa4C 4 10 5).alpha ∧
      (linear_periodic_point xa4C 4 10 5).alpha ≤ 1) :=
  ⟨⟨by norm_num, by decide⟩,
    (C2_amended_postconditions xa4C 4 10 5 (by norm_num) (by decide)).2.2.2.2.2
      (by norm_num [xa4C]) (by norm_num [xa4C]) (by norm_num [xa4C])⟩

/-- Counterexample to C10 as stated: with input_x_size = 1 (or 0) and
output_x_size = 0 — an output grid the interface permits — each init
routine still writes index 0 of the arrays just resized to length 0, so
the write is out of bounds. -/
theorem C10_counterexample :
    init_linear_writes 1 0 = [0] ∧
    piecewise_constant_writes 1 0 = [0] ∧
    linear_periodic_writes 1 0 = [0] ∧
    ¬ ((init_linear_writes 1 0).all fun i => decide (i < 0)) ∧
    ¬ ((piecewise_constant_writes 1 0).all fun i => decide (i < 0)) ∧
    ¬ ((linear_periodic_writes 1 0).all fun i => decide (i < 0)) := by
  decide

/-- C10 (amended): the unconditional degenerate-case write at output
index 0 of init_linear, PiecewiseConstant::init and LinearPeriodic::init
is in bounds whenever the output grid has at least one point (and the
non-degenerate loops only write indices below output_x_size); for
output_x_size = 0 with input_x_size < 2 the write at index 0 is out of
bounds (see the counterexample). -/
theorem C10_amended_writes_in_bounds (input_x_size output_x_size : ℕ)
    (hout : 1 ≤ output_x_size) :
    ((init_linear_writes input_x_size output_x_size).all fun i =>
      decide (i < output_x_size)) = true ∧
    ((piecewise_constant_writes input_x_size output_x_size).all fun i =>
      decide (i < output_x_size)) = true ∧
    ((linear_periodic_writes input_x_size output_x_size).all fun i =>
      decide (i < output_x_size)) = true := by
  have key : ∀ l : List ℕ, l = (if input_x_size < 2 then [0] else List.range output_x_size) →
      (l.all fun i => decide (i < output_x_size)) = true := by
    intro l hl
    subst hl
    by_cases h : input_x_size < 2
    · rw [if_pos h]
      simp [hout]
      omega
    · rw [if_neg h]
      simp only [List.all_eq_true, decide_eq_true_eq]
      intro i hi
      exact List.mem_range.mp hi
  exact ⟨key _ rfl, key _ rfl, key _ rfl⟩

/-- Witness for C10 (amended) at input_x_size = 1, output_x_size = 3. -/
theorem C10_witness :
    1 ≤ 3 ∧ ((init_linear_writes 1 3).all fun i => decide (i < 3)) = true :=
  ⟨by norm_num, (C10_amended_writes_in_bounds 1 3 (by norm_num)).1⟩

/-- C6: for every owned cell (i, j), extend_vertically preserves the
stored value at every level index k < old_Mz unchanged and sets every new
index old_Mz <= k < Mz to exactly the fill value; the 2-D-field variant
sets the new indices to the fill field's value at (i, j). -/
theorem C6_extend_vertically (g : HGrid) (Mz old_Mz : ℕ) (fill_value : ℚ)
    (fill_values : ℤ → ℤ → ℚ) (a : ℤ → ℤ → ℕ → ℚ) (i j : ℤ) (k : ℕ)
    (hown : owned g i j) :
    (k < old_Mz →
      extend_vertically g Mz old_Mz fill_value a i j k = a i j k ∧
      extend_vertically_field g Mz old_Mz fill_values a i j k = a i j k) ∧
    (old_Mz ≤ k → k < Mz →
      extend_vertically g Mz old_Mz fill_value a i j k = fill_value ∧
      extend_vertically_field g Mz old_Mz fill_values a i j k = fill_values i j) := by
  constructor
  · intro hk
    constructor
    · simp only [extend_vertically, extend_vertically_private]
      rw [if_neg (by omega : ¬ (owned g i j ∧ old_Mz ≤ k ∧ k < Mz))]
      rw [if_pos ⟨hown, hk⟩]
    · simp only [extend_vertically_field, extend_vertically_private]
      rw [if_neg (by omega : ¬ (owned g i j ∧ old_Mz ≤ k ∧ k < Mz))]
      rw [if_pos ⟨hown, hk⟩]
  · intro hk1 hk2
    constructor
    · simp only [extend_vertically]
      rw [if_pos ⟨hown, hk1, hk2⟩]
    · simp only [extend_vertically_field]
      rw [if_pos ⟨hown, hk1, hk2⟩]

/-- Witness for C6 on the grid with xs = 0, xm = 2, ys = 0, ym = 2 at the
owned cell (1, 1), with Mz = 5, old_Mz = 3, fill 7: index 2 is preserved
and index 4 is filled. -/
theorem C6_witness :
    owned ⟨0, 2, 0, 2⟩ 1 1 ∧
    extend_vertically ⟨0, 2, 0, 2⟩ 5 3 7 (fun i j k => (i : ℚ) + j + k) 1 1 2 =
      (1 : ℚ) + 1 + 2 ∧
    extend_vertically ⟨0, 2, 0, 2⟩ 5 3 7 (fun i j k => (i : ℚ) + j + k) 1 1 4 = 7 :=
  ⟨by constructor <;> norm_num [owned],
    (C6_extend_vertically ⟨0, 2, 0, 2⟩ 5 3 7 (fun i j => (i : ℚ) + j)
      (fun i j k => (i : ℚ) + j + k) 1 1 2
      (by constructor <;> norm_num [owned])).1 (by norm_num) |>.1,
    (C6_extend_vertically ⟨0, 2, 0, 2⟩ 5 3 7 (fun i j => (i : ℚ) + j)
      (fun i j k => (i : ℚ) + j + k) 1 1 4
      (by constructor <;> norm_num [owned])).2 (by norm_num) (by norm_num) |>.1⟩

/-- C5: setValColumnPL fails (returns the error flag) whenever levelsIN is
not strictly increasing, or levelsIN[0] > 0 + 1e-3, or
levelsIN[nlevels-1] < Lz - 1e-3, and in every such case the returned
column is exactly the prior column: all validation precedes any write. -/
theorem C5_setValColumnPL_validation (g : IceGrid) (col : ℕ → ℚ) (nlevels : ℕ)
    (levelsIN valsIN : ℕ → ℚ)
    (hfail : (¬ ∀ k, k + 1 < nlevels → levelsIN k < levelsIN (k + 1)) ∨
      0 + eps3 < levelsIN 0 ∨ levelsIN (nlevels - 1) < g.Lz - eps3) :
    (setValColumnPL g col nlevels levelsIN valsIN).1 = false ∧
    (setValColumnPL g col nlevels levelsIN valsIN).2.1 = col := by
  simp only [setValColumnPL]
  by_cases h1 : 0 + eps3 < levelsIN 0
  · rw [if_pos h1]
    exact ⟨rfl, rfl⟩
  · rw [if_neg h1]
    by_cases h2 : levelsIN (nlevels - 1) < g.Lz - eps3
    · rw [if_pos h2]
      exact ⟨rfl, rfl⟩
    · rw [if_neg h2]
      have h3 : ¬ ∀ k, k + 1 < nlevels → levelsIN k < levelsIN (k + 1) := by
        rcases hfail with h | h | h
        · exact h
        · exact absurd h h1
        · exact absurd h h2
      have hchk : strictIncCheck levelsIN nlevels = false := by
        by_contra hcon
        have htrue : strictIncCheck levelsIN nlevels = true := by
          revert hcon
          cases strictIncCheck levelsIN nlevels <;> simp
        apply h3
        intro k hk
        have := (List.all_eq_true.mp htrue) k (List.mem_range.mpr (by omega))
        exact of_decide_eq_true this
      rw [hchk]
      exact ⟨rfl, rfl⟩

/-- Witness for C5: on the scenario grid gC (Lz = 30) with
levelsIN = [0, 20] (its last level is below Lz - 1e-3), the call fails and
the column colC is returned unchanged. -/
theorem C5_witness :
    ((fun k => ([0, 20].getD k 0 : ℚ)) (2 - 1) < gC.Lz - eps3) ∧
    (setValColumnPL gC colC 2 (fun k => [0, 20].getD k 0) (fun _ => 0)).1 = false ∧
    (setValColumnPL gC colC 2 (fun k => [0, 20].getD k 0) (fun _ => 0)).2.1 = colC := by
  refine ⟨by norm_num [gC, eps3], ?_⟩
  exact C5_setValColumnPL_validation gC colC 2 (fun k => [0, 20].getD k 0) (fun _ => 0)
    (Or.inr (Or.inr (by norm_num [gC, eps3])))

/-- A two-level ice grid: levels [0, 1], Lz = 1. -/
def g9 : IceGrid := ⟨2, fun k => [0, 1].getD k 0, 1⟩

/-- Input levels [0, 0.999] for setValColumnPL on g9: they pass the
1e-3-tolerance coverage check yet stop short of Lz = 1. -/
def lin9 : ℕ → ℚ := fun k => [0, 999/1000].getD k 0

/-- Counterexample to C9 as stated: on g9 with levelsIN = [0, 0.999] every
precondition the code checks holds (levelsIN strictly increasing,
levelsIN[0] <= 0 + 1e-3, levelsIN[nlevels-1] >= Lz - 1e-3, stored levels
strictly increasing spanning [0, Lz]), yet the bracket scan for the stored
level z = 1 reads levelsIN[2] with nlevels = 2 — past the end of the
array. -/
theorem C9_counterexample :
    (lin9 0 ≤ 0 + eps3 ∧ ¬ (lin9 (2 - 1) < g9.Lz - eps3) ∧
      StrictlyIncreasing lin9 2 ∧ StrictlyIncreasing g9.zlevels g9.Mz ∧
      g9.zlevels 0 = 0 ∧ g9.zlevels (g9.Mz - 1) = g9.Lz ∧ 2 ≤ g9.Mz) ∧
    (setValColumnPL g9 (fun _ => 0) 2 lin9 (fun _ => 0)).2.2 = [1, 1, 2] ∧
    ¬ (((setValColumnPL g9 (fun _ => 0) 2 lin9 (fun _ => 0)).2.2).all fun a =>
        decide (a ≤ 2 - 1)) = true := by
  have hreads : (setValColumnPL g9 (fun _ => 0) 2 lin9 (fun _ => 0)).2.2 = [1, 1, 2] := by
    norm_num [setValColumnPL, strictIncCheck, setPLGo, scanFrom, eps3, g9, lin9]
  refine ⟨⟨?_, ?_, ?_, by decide, by decide, by decide, by norm_num [g9]⟩, hreads, ?_⟩
  · norm_num [lin9, eps3]
  · norm_num [lin9, eps3, g9]
  · intro i hi
    interval_cases i
    norm_num [lin9]
  · rw [hreads]
    decide

/-- Every index the bracket scans of the setValColumnPL write loop read
stays at or below nlevels - 1, provided every stored level is at or below
levelsIN[nlevels - 1] and the running bracket start is at most
nlevels - 2. -/
lemma setPLGo_reads (zlv lin vin : ℕ → ℚ) (nlevels : ℕ) (hn : 2 ≤ nlevels) :
    ∀ rem k mcurr, (∀ t, t < rem → zlv (k + t) ≤ lin (nlevels - 1)) →
      mcurr ≤ nlevels - 2 →
      ∀ a ∈ (setPLGo zlv lin vin nlevels rem k mcurr).2, a ≤ nlevels - 1 := by
  intro rem
  induction rem with
  | zero =>
    intro k mcurr h1 h2 a ha
    simp only [setPLGo] at ha
    exact absurd ha (List.not_mem_nil a)
  | succ rem ih =>
    intro k mcurr h1 h2 a ha
    simp only [setPLGo] at ha
    have hstop : ¬ lin (nlevels - 2 + 1) < zlv k := by
      have heq : nlevels - 2 + 1 = nlevels - 1 := by omega
      rw [heq]
      exact not_lt.mpr (by have h := h1 0 (by omega); simpa using h)
    have hs := scanFrom_spec lin (zlv k) nlevels mcurr (nlevels - 2) h2 (by omega) hstop
    rcases List.mem_append.mp ha with h | h
    · have hbound := hs.2.2.2.2 a h
      have hm := hs.2.1
      omega
    · refine ih (k + 1) _ ?_ (by have := hs.2.1; omega) a h
      intro t ht
      have := h1 (t + 1) (by omega)
      rwa [show k + 1 + t = k + (t + 1) by omega]

/-- C9 (amended): under the code's preconditions strengthened so that the
input levels truly cover the domain top (levelsIN[nlevels-1] >= Lz exactly
rather than up to the 1e-3 tolerance), the write loop's bracket scan only
ever reads levelsIN at indices at or below nlevels - 1, i.e. never past
the end of levelsIN.  (With the tolerance alone the claim is false: see
the counterexample.) -/
theorem C9_amended_scan_in_bounds (g : IceGrid) (col : ℕ → ℚ) (nlevels : ℕ)
    (levelsIN valsIN : ℕ → ℚ)
    (hMz : 2 ≤ g.Mz) (hsiz : StrictlyIncreasing g.zlevels g.Mz)
    (htop : g.zlevels (g.Mz - 1) = g.Lz)
    (hnl : 2 ≤ nlevels) (hsil : StrictlyIncreasing levelsIN nlevels)
    (hlow : levelsIN 0 ≤ 0 + eps3) (hcover : g.Lz ≤ levelsIN (nlevels - 1)) :
    (setValColumnPL g col nlevels levelsIN valsIN).1 = true ∧
    (((setValColumnPL g col nlevels levelsIN valsIN).2.2).all fun a =>
      decide (a ≤ nlevels - 1)) = true := by
  have heps : (0 : ℚ) < eps3 := by norm_num [eps3]
  have hchk : strictIncCheck levelsIN nlevels = true := by
    apply List.all_eq_true.mpr
    intro k hk
    exact decide_eq_true (hsil k (List.mem_range.mp hk))
  have hlevels : ∀ t, t < g.Mz → g.zlevels (0 + t) ≤ levelsIN (nlevels - 1) := by
    intro t ht
    calc g.zlevels (0 + t) ≤ g.zlevels (g.Mz - 1) :=
          strictlyIncreasing_le hsiz (by omega) (by omega)
      _ = g.Lz := htop
      _ ≤ levelsIN (nlevels - 1) := hcover
  constructor
  · simp only [setValColumnPL]
    rw [if_neg (not_lt.mpr hlow), if_neg (not_lt.mpr (by linarith)),
      if_neg (by simp [hchk])]
  · simp only [setValColumnPL]
    rw [if_neg (not_lt.mpr hlow), if_neg (not_lt.mpr (by linarith)),
      if_neg (by simp [hchk])]
    apply List.all_eq_true.mpr
    intro a ha
    exact decide_eq_true
      (setPLGo_reads g.zlevels levelsIN valsIN nlevels hnl g.Mz 0 0 hlevels (by omega) a ha)

/-- Witness for C9 (amended) on g9 with levelsIN = the stored levels
themselves (exact coverage): the call succeeds and every read index is at
most nlevels - 1 = 1. -/
theorem C9_witness :
    (2 ≤ g9.Mz ∧ StrictlyIncreasing g9.zlevels g9.Mz ∧
      g9.zlevels (g9.Mz - 1) = g9.Lz ∧ g9.zlevels 0 ≤ 0 + eps3 ∧
      g9.Lz ≤ g9.zlevels (2 - 1)) ∧
    (setValColumnPL g9 (fun _ => 0) 2 g9.zlevels (fun _ => 0)).1 = true ∧
    (((setValColumnPL g9 (fun _ => 0) 2 g9.zlevels (fun _ => 0)).2.2).all fun a =>
      decide (a ≤ 2 - 1)) = true :=
  ⟨⟨by norm_num [g9], by decide, by decide, by norm_num [g9, eps3], by norm_num [g9]⟩,
    C9_amended_scan_in_bounds g9 (fun _ => 0) 2 g9.zlevels (fun _ => 0)
      (by norm_num [g9]) (by decide) (by decide) (by norm_num) (by decide)
      (by norm_num [g9, eps3]) (by norm_num [g9])⟩

/-- C3: on a column store whose strictly increasing stored levels span
[0, Lz], value_at_level fails exactly outside [0 - 1e-6, Lz + 1e-6];
inside, it clamps to the top value for z >= levels[Mz-1], clamps to the
bottom value for z <= 0, and otherwise returns the piecewise-linear
interpolant between the enclosing stored levels.  Concretely, with
levels [0,10,20,30] and column [100,200,300,400]: value at 25 is 350,
value at 35 is a DomainError, and the piecewise-linear column query
[0, 25, 40] returns [100, 350, 400] without error. -/
theorem C3_getValZ_clamp_and_interpolate :
    (∀ (g : IceGrid) (col : ℕ → ℚ) (z : ℚ),
      2 ≤ g.Mz → StrictlyIncreasing g.zlevels g.Mz →
      g.zlevels 0 = 0 → g.zlevels (g.Mz - 1) = g.Lz →
      ((z < -eps6 ∨ g.Lz + eps6 < z) → getValZ g col z = none) ∧
      (¬ (z < -eps6 ∨ g.Lz + eps6 < z) →
        (g.zlevels (g.Mz - 1) ≤ z → getValZ g col z = some (col (g.Mz - 1))) ∧
        (z ≤ 0 → getValZ g col z = some (col 0)) ∧
        (0 < z → z < g.zlevels (g.Mz - 1) →
          ∃ m, m + 1 < g.Mz ∧ g.zlevels m < z ∧ z ≤ g.zlevels (m + 1) ∧
            getValZ g col z = some (plFormula g col m z)))) ∧
    (getValZ gC colC 25 = some 350 ∧ getValZ gC colC 35 = none ∧
      getValColumnPL gC colC [0, 25, 40] = some [100, 350, 400]) := by
  constructor
  · intro g col z hMz hsi h0 htop
    have hLzpos : 0 < g.Lz := by
      have h := strictlyIncreasing_lt hsi (show 0 < g.Mz - 1 by omega) (by omega)
      rw [h0, htop] at h
      exact h
    constructor
    · intro hz
      have hleg : isLegalLevel g z = false := by
        rcases hz with h | h
        · simp only [isLegalLevel]
          rw [decide_eq_true (show z < 0 - eps6 by linarith)]
          rfl
        · simp only [isLegalLevel]
          rw [decide_eq_true h]
          simp
      simp [getValZ, hleg]
    · intro hz
      push_neg at hz
      have hleg : isLegalLevel g z = true := by
        simp only [isLegalLevel, Bool.and_eq_true, Bool.not_eq_true', decide_eq_false_iff_not]
        constructor
        · intro hcon
          exact absurd hcon (not_lt.mpr (by linarith [hz.1]))
        · exact not_lt.mpr hz.2
      refine ⟨?_, ?_, ?_⟩
      · intro htopz
        have hLz : g.Lz ≤ z := htop ▸ htopz
        simp [getValZ, hleg, hLz]
      · intro hz0
        have hnot : ¬ g.Lz ≤ z := by linarith
        simp [getValZ, hleg, hnot, hz0]
      · intro hzpos hztop
        have hnot : ¬ g.Lz ≤ z := by
          rw [← htop]
          linarith
        have hnot2 : ¬ z ≤ 0 := by linarith
        have hstop : ¬ g.zlevels (g.Mz - 2 + 1) < z := by
          have heq : g.Mz - 2 + 1 = g.Mz - 1 := by omega
          rw [heq]
          linarith
        have hs := scanFrom_spec g.zlevels z g.Mz 0 (g.Mz - 2) (Nat.zero_le _)
          (by omega) hstop
        obtain ⟨-, hm1, hm2, hm3, -⟩ := hs
        refine ⟨(scanFrom g.zlevels z g.Mz 0).1, by omega, ?_, not_lt.mp hm2, ?_⟩
        · rcases Nat.eq_zero_or_pos (scanFrom g.zlevels z g.Mz 0).1 with h | h
          · rw [h, h0]
            exact hzpos
          · have hc := hm3 ((scanFrom g.zlevels z g.Mz 0).1 - 1) (Nat.zero_le _) (by omega)
            rwa [show (scanFrom g.zlevels z g.Mz 0).1 - 1 + 1 =
              (scanFrom g.zlevels z g.Mz 0).1 by omega] at hc
        · simp [getValZ, hleg, hnot, hnot2]
  · refine ⟨?_, ?_, ?_⟩
    · norm_num [getValZ, isLegalLevel, eps6, plFormula, scanFrom, gC, colC]
    · norm_num [getValZ, isLegalLevel, eps6, gC]
    · norm_num [getValColumnPL, isLegalLevel, eps6, strictIncList, plLoop, plFormula,
        scanFrom, gC, colC]

/-- Witness for C3 on the scenario grid at z = 35 (outside the domain). -/
theorem C3_witness :
    (2 ≤ gC.Mz ∧ StrictlyIncreasing gC.zlevels gC.Mz ∧ gC.zlevels 0 = 0 ∧
      gC.zlevels (gC.Mz - 1) = gC.Lz ∧ gC.Lz + eps6 < 35) ∧
    getValZ gC colC 35 = none :=
  ⟨⟨by norm_num [gC], by decide, by decide, by decide, by norm_num [gC, eps6]⟩,
    (C3_getValZ_clamp_and_interpolate.1 gC colC 35 (by norm_num [gC]) (by decide)
      (by decide) (by decide)).1 (Or.inr (by norm_num [gC, eps6]))⟩

/-- A quadratic polynomial passing through the three consecutive stored
samples at levels m, m+1, m+2 of a column. -/
def Thru3 (g : IceGrid) (col : ℕ → ℚ) (m : ℕ) (a0 a1 a2 : ℚ) : Prop :=
  a0 + a1 * g.zlevels m + a2 * g.zlevels m ^ 2 = col m ∧
  a0 + a1 * g.zlevels (m + 1) + a2 * g.zlevels (m + 1) ^ 2 = col (m + 1) ∧
  a0 + a1 * g.zlevels (m + 2) + a2 * g.zlevels (m + 2) ^ 2 = col (m + 2)

/-- Two quadratics agreeing at three distinct points agree everywhere. -/
lemma quad_unique (x0 x1 x2 a0 a1 a2 b0 b1 b2 : ℚ)
    (h01 : x0 ≠ x1) (h02 : x0 ≠ x2) (h12 : x1 ≠ x2)
    (e0 : a0 + a1 * x0 + a2 * x0 ^ 2 = b0 + b1 * x0 + b2 * x0 ^ 2)
    (e1 : a0 + a1 * x1 + a2 * x1 ^ 2 = b0 + b1 * x1 + b2 * x1 ^ 2)
    (e2 : a0 + a1 * x2 + a2 * x2 ^ 2 = b0 + b1 * x2 + b2 * x2 ^ 2) :
    ∀ t : ℚ, a0 + a1 * t + a2 * t ^ 2 = b0 + b1 * t + b2 * t ^ 2 := by
  have k01 : (x0 - x1) * ((a1 - b1) + (a2 - b2) * (x0 + x1)) = 0 := by
    linear_combination e0 - e1
  have k02 : (x0 - x2) * ((a1 - b1) + (a2 - b2) * (x0 + x2)) = 0 := by
    linear_combination e0 - e2
  have k01b : (a1 - b1) + (a2 - b2) * (x0 + x1) = 0 :=
    (mul_eq_zero.mp k01).resolve_left (sub_ne_zero.mpr h01)
  have k02b : (a1 - b1) + (a2 - b2) * (x0 + x2) = 0 :=
    (mul_eq_zero.mp k02).resolve_left (sub_ne_zero.mpr h02)
  have k12 : (a2 - b2) * (x2 - x1) = 0 := by linear_combination k02b - k01b
  have ha2 : a2 = b2 := by
    have h := (mul_eq_zero.mp k12).resolve_right (sub_ne_zero.mpr (Ne.symm h12))
    linarith
  have ha1 : a1 = b1 := by linear_combination k01b - (x0 + x1) * ha2
  have ha0 : a0 = b0 := by linear_combination e0 - x0 * ha1 - x0 ^ 2 * ha2
  intro t
  linear_combination ha0 + t * ha1 + t ^ 2 * ha2

/-- The Newton divided-difference form used by getValColumnQUAD, over
abstract nodes: it is a quadratic polynomial through the three samples
(z0, f0), (z1, f1), (z2, f2). -/
lemma newton_thru3 (z0 z1 z2 f0 f1 f2 : ℚ)
    (hne1 : z1 - z0 ≠ 0) (hne2 : z2 - z0 ≠ 0)
    (hne12 : (z2 - z0) - (z1 - z0) ≠ 0) :
    ∃ a0 a1 a2 : ℚ,
      (a0 + a1 * z0 + a2 * z0 ^ 2 = f0 ∧
       a0 + a1 * z1 + a2 * z1 ^ 2 = f1 ∧
       a0 + a1 * z2 + a2 * z2 ^ 2 = f2) ∧
      ∀ z : ℚ,
        f0 + (z - z0) *
          ((f1 - f0) / (z1 - z0) -
            ((f2 - f0) / (z2 - z0) - (f1 - f0) / (z1 - z0)) /
              ((z2 - z0) - (z1 - z0)) * (z1 - z0) +
            ((f2 - f0) / (z2 - z0) - (f1 - f0) / (z1 - z0)) /
              ((z2 - z0) - (z1 - z0)) * (z - z0)) =
        a0 + a1 * z + a2 * z ^ 2 := by
  set D1 : ℚ := (f1 - f0) / (z1 - z0) with hD1
  set D2 : ℚ := (f2 - f0) / (z2 - z0) with hD2
  set C : ℚ := (D2 - D1) / ((z2 - z0) - (z1 - z0)) with hC
  have hD1e : f0 + (z1 - z0) * D1 = f1 := by
    rw [hD1]
    field_simp
  have hD2e : f0 + (z2 - z0) * D2 = f2 := by
    rw [hD2]
    field_simp
  have hC2 : C * ((z2 - z0) - (z1 - z0)) = D2 - D1 := by
    rw [hC, div_mul_cancel₀ _ hne12]
  refine ⟨f0 - (D1 - C * (z1 - z0)) * z0 + C * z0 ^ 2,
    (D1 - C * (z1 - z0)) - 2 * C * z0, C, ⟨by ring, ?_, ?_⟩, by intro z; ring⟩
  · linear_combination hD1e
  · linear_combination (z2 - z0) * hC2 + hD2e

/-- The Newton divided-difference expression of getValColumnQUAD is a
quadratic polynomial through the three consecutive stored samples at
m, m+1, m+2. -/
lemma quadFormula_eval (g : IceGrid) (col : ℕ → ℚ) (m : ℕ) (hm : m + 2 < g.Mz)
    (hsi : StrictlyIncreasing g.zlevels g.Mz) :
    ∃ a0 a1 a2 : ℚ, Thru3 g col m a0 a1 a2 ∧
      ∀ z : ℚ, quadFormula g col m z = a0 + a1 * z + a2 * z ^ 2 := by
  have hguard : ¬ (g.Mz - 2 ≤ m) := by omega
  have hz01 : g.zlevels m < g.zlevels (m + 1) := hsi m (by omega)
  have hz12 : g.zlevels (m + 1) < g.zlevels (m + 2) := hsi (m + 1) (by omega)
  have hne1 : g.zlevels (m + 1) - g.zlevels m ≠ 0 := ne_of_gt (sub_pos.mpr hz01)
  have hne2 : g.zlevels (m + 2) - g.zlevels m ≠ 0 :=
    ne_of_gt (sub_pos.mpr (lt_trans hz01 hz12))
  have hne12 : (g.zlevels (m + 2) - g.zlevels m) - (g.zlevels (m + 1) - g.zlevels m) ≠ 0 := by
    rw [show (g.zlevels (m + 2) - g.zlevels m) - (g.zlevels (m + 1) - g.zlevels m) =
      g.zlevels (m + 2) - g.zlevels (m + 1) by ring]
    exact ne_of_gt (sub_pos.mpr hz12)
  obtain ⟨a0, a1, a2, hthru, heval⟩ := newton_thru3 (g.zlevels m) (g.zlevels (m + 1))
    (g.zlevels (m + 2)) (col m) (col (m + 1)) (col (m + 2)) hne1 hne2 hne12
  refine ⟨a0, a1, a2, hthru, ?_⟩
  intro z
  simp only [quadFormula, if_neg hguard]
  exact heval z

/-- The strict-increase loop check of getValColumnPL / getValColumnQUAD
passes on a pairwise strictly increasing query list. -/
lemma strictIncList_of_pairwise : ∀ zs : List ℚ, zs.Pairwise (· < ·) →
    strictIncList zs = true := by
  intro zs
  induction zs with
  | nil => intro _; rfl
  | cons a rest ih =>
    intro hpw
    cases rest with
    | nil => rfl
    | cons b rest2 =>
      have hpw' := List.pairwise_cons.mp hpw
      simp only [strictIncList, Bool.and_eq_true]
      exact ⟨decide_eq_true (hpw'.1 b (List.mem_cons_self b rest2)), ih hpw'.2⟩

/-- On strictly increasing query levels the running bracket index mcurr of
the getValColumnQUAD loop is harmless: the loop computes, at each query,
the same value as a fresh scan from index 0. -/
lemma quadLoop_eq_map (g : IceGrid) (col : ℕ → ℚ) (hMz : 2 ≤ g.Mz) :
    ∀ (zs : List ℚ) (mcurr : ℕ), zs.Pairwise (· < ·) →
      (∀ z ∈ zs, ¬ g.zlevels (g.Mz - 1) < z → mcurr ≤ (scanFrom g.zlevels z g.Mz 0).1) →
      quadLoop g col mcurr zs = zs.map (quad_point g col) := by
  intro zs
  induction zs with
  | nil =>
    intro mcurr _ _
    simp [quadLoop]
  | cons z rest ih =>
    intro mcurr hpw hinv
    have hpw' := List.pairwise_cons.mp hpw
    rw [List.map_cons]
    by_cases hz : g.zlevels (g.Mz - 1) < z
    · simp only [quadLoop, if_pos hz]
      congr 1
      · simp only [quad_point, if_pos hz]
      · exact ih mcurr hpw'.2 (fun z' hz' h => hinv z' (List.mem_cons_of_mem z hz') h)
    · have hstopz : ¬ g.zlevels (g.Mz - 2 + 1) < z := by
        have heq : g.Mz - 2 + 1 = g.Mz - 1 := by omega
        rw [heq]
        exact hz
      have hm0 : mcurr ≤ (scanFrom g.zlevels z g.Mz 0).1 :=
        hinv z (List.mem_cons_self z rest) hz
      have hrestart := scanFrom_restart g.zlevels z g.Mz mcurr (g.Mz - 2) (by omega)
        hstopz hm0
      simp only [quadLoop, if_neg hz]
      congr 1
      · rw [hrestart]
        simp only [quad_point, if_neg hz]
      · apply ih
        · exact hpw'.2
        · intro z' hz' hz'top
          rw [hrestart]
          have hstopz' : ¬ g.zlevels (g.Mz - 2 + 1) < z' := by
            have heq : g.Mz - 2 + 1 = g.Mz - 1 := by omega
            rw [heq]
            exact hz'top
          exact scanFrom_mono g.zlevels z z' g.Mz (g.Mz - 2) (g.Mz - 2)
            (le_of_lt (hpw'.1 z' hz')) (by omega) hstopz (by omega) hstopz'

/-- C4: on strictly increasing legal query levels, getValColumnQUAD
returns per query level: the top stored value for queries strictly above
the top stored level; the value at the query of the (unique) quadratic
through the three consecutive stored samples starting at the bracket when
the bracket index is below Mz - 2; and the piecewise-linear interpolant
between the bracket levels otherwise. -/
theorem C4_getValColumnQUAD_quadratic (g : IceGrid) (col : ℕ → ℚ) (zs : List ℚ)
    (hMz : 2 ≤ g.Mz) (hsi : StrictlyIncreasing g.zlevels g.Mz)
    (hpw : zs.Pairwise (· < ·)) (hleg : isLegalLevel g zs.headI = true) :
    getValColumnQUAD g col zs = some (zs.map (quad_point g col)) ∧
    ∀ z ∈ zs,
      (g.zlevels (g.Mz - 1) < z → quad_point g col z = col (g.Mz - 1)) ∧
      (¬ g.zlevels (g.Mz - 1) < z →
        ((scanFrom g.zlevels z g.Mz 0).1 + 2 < g.Mz →
          (∃ a0 a1 a2, Thru3 g col (scanFrom g.zlevels z g.Mz 0).1 a0 a1 a2) ∧
          (∀ a0 a1 a2, Thru3 g col (scanFrom g.zlevels z g.Mz 0).1 a0 a1 a2 →
            quad_point g col z = a0 + a1 * z + a2 * z ^ 2)) ∧
        (g.Mz - 2 ≤ (scanFrom g.zlevels z g.Mz 0).1 →
          quad_point g col z = plFormula g col (scanFrom g.zlevels z g.Mz 0).1 z)) := by
  constructor
  · simp only [getValColumnQUAD]
    rw [if_neg (by simp [hleg]), if_neg (by simp [strictIncList_of_pairwise zs hpw])]
    rw [quadLoop_eq_map g col hMz zs 0 hpw (fun z hz h => Nat.zero_le _)]
  · intro z hz
    refine ⟨?_, ?_⟩
    · intro htopz
      simp only [quad_point, if_pos htopz]
    · intro htopz
      set m := (scanFrom g.zlevels z g.Mz 0).1 with hmdef
      refine ⟨?_, ?_⟩
      · intro hm
        obtain ⟨a0, a1, a2, hthru, heq⟩ := quadFormula_eval g col m hm hsi
        refine ⟨⟨a0, a1, a2, hthru⟩, ?_⟩
        intro b0 b1 b2 hthru'
        simp only [quad_point, if_neg htopz, ← hmdef]
        rw [heq z]
        have h01 : g.zlevels m ≠ g.zlevels (m + 1) := ne_of_lt (hsi m (by omega))
        have h02 : g.zlevels m ≠ g.zlevels (m + 2) :=
          ne_of_lt (lt_trans (hsi m (by omega)) (hsi (m + 1) (by omega)))
        have h12 : g.zlevels (m + 1) ≠ g.zlevels (m + 2) := ne_of_lt (hsi (m + 1) (by omega))
        exact quad_unique (g.zlevels m) (g.zlevels (m + 1)) (g.zlevels (m + 2))
          a0 a1 a2 b0 b1 b2 h01 h02 h12
          (hthru.1.trans hthru'.1.symm)
          (hthru.2.1.trans hthru'.2.1.symm)
          (hthru.2.2.trans hthru'.2.2.symm) z
      · intro hm
        simp only [quad_point, if_neg htopz, ← hmdef]
        simp only [quadFormula, if_pos hm, plFormula]

/-- Witness for C4 on the scenario grid with query levels [5, 25]. -/
theorem C4_witness :
    (2 ≤ gC.Mz ∧ StrictlyIncreasing gC.zlevels gC.Mz ∧
      ([5, 25] : List ℚ).Pairwise (· < ·) ∧
      isLegalLevel gC (([5, 25] : List ℚ).headI) = true) ∧
    getValColumnQUAD gC colC [5, 25] = some ([5, 25].map (quad_point gC colC)) :=
  ⟨⟨by norm_num [gC], by decide, by decide, by norm_num [isLegalLevel, gC, eps6]⟩,
    (C4_getValColumnQUAD_quadratic gC colC [5, 25] (by norm_num [gC]) (by decide)
      (by decide) (by norm_num [isLegalLevel, gC, eps6])).1⟩

end Pism
